import Mathlib

/-!
Shallow embedding of the `hiex` byte-editing core.

The embedding mirrors the sources:
- `src/lib.rs` : `stream_len`, `stream_position` (seek probes over a store).
- `src/hiex.rs` : `EditAction` with `apply`/`unapply`.
- `src/action.rs` : `ActionList` (ordered actions + cursor `index`) with
  `clear_future`, `undo`, `redo`, `add`.
- `src/constrained_wrapper.rs` : `ConstrainedWrapper` with
  `position_from_offset`, `position_into_offset`, `remaining_bytes`,
  `read`, `write`, `seek`, plus the helpers `apply_offset` and
  `negative_i64_into_u64_offset`.

The byte store is modelled after the `std::io::Cursor<Vec<u8>>` stores the
repository's tests and examples use: a byte list plus a cursor position.
Machine integers are modelled as `Nat` (u64/usize) and `Int` (i64) with the
relevant width bounds made explicit (`U64_MAX`, saturation, wrap-around)
exactly where the source performs width-sensitive arithmetic.
Rust panics (index/unwrap failures that are unreachable while the data
structure invariants hold) are modelled by an `Option` result: `none` marks
the panicking execution.
-/

/-- `u64::MAX`. -/
def U64_MAX : Nat := 2 ^ 64 - 1

/-- `i64::MIN`. -/
def I64_MIN : Int := -(2 ^ 63)

/-- `u64::saturating_add`. -/
def u64SatAdd (a b : Nat) : Nat := min (a + b) U64_MAX

/-- `Vec::resize(n, v)`: keep the first `n` elements, pad with `v` up to `n`. -/
def listResize (l : List Nat) (n : Nat) (v : Nat) : List Nat :=
  l.take n ++ List.replicate (n - l.length) v

/-- A seekable byte store, as `std::io::Cursor<Vec<u8>>`: the byte contents
plus the current cursor position.  The position may point past the end of the
data (a cursor allows that). -/
structure Store where
  data : List Nat
  pos : Nat
  deriving DecidableEq, Repr

namespace Store

/-- `Seek::seek(SeekFrom::Start(p))` on a cursor: set the position, return it.
It never fails. -/
def seek (s : Store) (p : Nat) : Store := { s with pos := p }

/-- `stream_len` from `src/lib.rs`: probes the length with seeks and restores
the position on success.  On a cursor it always succeeds, returns the data
length, and leaves the store unchanged. -/
def streamLen (s : Store) : Nat := s.data.length

/-- `stream_position` from `src/lib.rs`: seek by 0 from the current position. -/
def streamPosition (s : Store) : Nat := s.pos

/-- `Read::read` on a cursor: copy at most `n` bytes starting at the current
position (fewer if the data runs out), advancing the position by the amount
actually read.  Returns the bytes read. -/
def read (s : Store) (n : Nat) : List Nat × Store :=
  let m := min n (s.data.length - s.pos)
  ((s.data.drop s.pos).take m, { s with pos := s.pos + m })

/-- `Read::read_exact` for `n` bytes: succeeds exactly when `n` bytes are
available at the current position.  `none` is the error case (the partially
filled buffer and intermediate position of the failing source call are not
modelled further; no verified path depends on them). -/
def readExact (s : Store) (n : Nat) : Option (List Nat × Store) :=
  if s.pos + n ≤ s.data.length then
    some ((s.data.drop s.pos).take n, { s with pos := s.pos + n })
  else none

/-- `Write::write_all` on a `Cursor<Vec<u8>>`: overwrite bytes at the current
position, zero-padding the gap if the position is past the end and extending
the vector if the write runs past the end.  It never fails. -/
def write (s : Store) (buf : List Nat) : Store :=
  let d := if s.data.length < s.pos
    then s.data ++ List.replicate (s.pos - s.data.length) 0
    else s.data
  { data := d.take s.pos ++ buf ++ d.drop (s.pos + buf.length),
    pos := s.pos + buf.length }

end Store

/-- `ActionError` from `src/action.rs`, extended with the `Invalid` variant
that `src/hiex.rs` raises for an edit that would reach past the end of the
store. -/
inductive ActionError
  | Invalid
  | IoError
  deriving DecidableEq, Repr

/-- `EditAction` from `src/hiex.rs`: replace `new_data.length` bytes at
`position`, remembering the overwritten bytes in `previous_data`. -/
structure EditAction where
  position : Nat
  previous_data : List Nat
  new_data : List Nat
  deriving DecidableEq, Repr

namespace EditAction

/-- `EditAction::new`. -/
def new (position : Nat) (new_data : List Nat) : EditAction :=
  { position := position, previous_data := [], new_data := new_data }

/-- `EditAction::apply` (`src/hiex.rs`).  Returns the action (it is mutated
through `&mut self`), the store, and `none` on success / `some e` on failure.
The length guard uses `u64::saturating_add` as the source does. -/
def apply (a : EditAction) (s : Store) : EditAction × Store × Option ActionError :=
  let length := s.streamLen
  let new_data_len := a.new_data.length
  if u64SatAdd a.position new_data_len ≥ length then
    (a, s, some ActionError.Invalid)
  else
    let s1 := s.seek a.position
    let a1 := { a with previous_data := listResize a.previous_data new_data_len 0 }
    match s1.readExact new_data_len with
    | none => (a1, s1, some ActionError.IoError)
    | some (prev, s2) =>
      let a2 := { a1 with previous_data := prev }
      let s3 := (s2.seek a.position).write a.new_data
      (a2, s3, none)

/-- `EditAction::unapply` (`src/hiex.rs`): seek to `position` and write
`previous_data` back.  On a cursor store this never fails. -/
def unapply (a : EditAction) (s : Store) : EditAction × Store × Option ActionError :=
  (a, (s.seek a.position).write a.previous_data, none)

end EditAction

/-- The `Action` trait of `src/action.rs`, for an action type `α` over a
store type `σ` with error type `ε`: fallible `apply`/`unapply` that may
mutate both the action and the store (the returned `Option ε` is the error
slot; `none` means success). -/
structure ActionSpec (α σ ε : Type) where
  apply : α → σ → α × σ × Option ε
  unapply : α → σ → α × σ × Option ε

/-- `ActionList` from `src/action.rs`: the ordered actions and the cursor
`index`; entries `< index` are the "past", entries `≥ index` the "future". -/
structure ActionList (α : Type) where
  actions : List α
  index : Nat
  deriving DecidableEq, Repr

namespace ActionList

variable {α σ ε : Type}

/-- `ActionList::new`. -/
def new : ActionList α := { actions := [], index := 0 }

/-- `ActionList::past_len`. -/
def past_len (l : ActionList α) : Nat := l.index

/-- `ActionList::future_len` (`actions.len() - index`, in-bounds while the
cursor invariant `index ≤ actions.length` holds). -/
def future_len (l : ActionList α) : Nat := l.actions.length - l.index

/-- `ActionList::clear_future`: pop until `actions.len() ≤ index`, i.e. keep
the first `index` entries. -/
def clear_future (l : ActionList α) : ActionList α :=
  { l with actions := l.actions.take l.index }

/-- `ActionList::undo`.  `none` models the source panicking (indexing
`actions[index - 1]` out of bounds, unreachable while `index ≤ length`).
Otherwise the result is the updated list, the store, and
`Ok(None) / Ok(Some(())) / Err e` as in the source. -/
def undo (sp : ActionSpec α σ ε) (l : ActionList α) (s : σ) :
    Option (ActionList α × σ × Except ε (Option Unit)) :=
  if l.index = 0 then
    -- is_past_empty: no actions to undo
    some (l, s, Except.ok none)
  else
    match l.actions.get? (l.index - 1) with
    | none => none
    | some a =>
      match sp.unapply a s with
      | (a2, s2, some e) =>
        -- failure: the cursor is left unchanged (the action element was
        -- mutated in place through `&mut`)
        some ({ l with actions := l.actions.set (l.index - 1) a2 }, s2,
          Except.error e)
      | (a2, s2, none) =>
        some ({ actions := l.actions.set (l.index - 1) a2, index := l.index - 1 },
          s2, Except.ok (some ()))

/-- `ActionList::redo`.  `none` models the source panicking (indexing
`actions[index]` out of bounds, unreachable while `index ≤ length`). -/
def redo (sp : ActionSpec α σ ε) (l : ActionList α) (s : σ) :
    Option (ActionList α × σ × Except ε (Option Unit)) :=
  if l.actions.length ≤ l.index then
    -- is_future_empty: no actions to redo
    some (l, s, Except.ok none)
  else
    match l.actions.get? l.index with
    | none => none
    | some a =>
      match sp.apply a s with
      | (a2, s2, some e) =>
        some ({ l with actions := l.actions.set l.index a2 }, s2, Except.error e)
      | (a2, s2, none) =>
        some ({ actions := l.actions.set l.index a2, index := l.index + 1 },
          s2, Except.ok (some ()))

/-- `ActionList::add`: apply the action; on failure hand the (possibly
mutated) action back with the error and change no log state; on success
clear the future, push the applied action, advance the cursor. -/
def add (sp : ActionSpec α σ ε) (l : ActionList α) (a : α) (s : σ) :
    ActionList α × σ × Except (α × ε) Unit :=
  match sp.apply a s with
  | (a2, s2, some e) => (l, s2, Except.error (a2, e))
  | (a2, s2, none) =>
    let l2 := l.clear_future
    ({ actions := l2.actions ++ [a2], index := l2.index + 1 }, s2, Except.ok ())

end ActionList

/-- The `Action` implementation of `EditAction` over a cursor store. -/
def editSpec : ActionSpec EditAction Store ActionError :=
  { apply := EditAction.apply, unapply := EditAction.unapply }

/-- Apply a sequence of edit actions through `ActionList::add`, requiring
every `add` to succeed (`none` if any is rejected). -/
def addAll (l : ActionList EditAction) (s : Store) :
    List EditAction → Option (ActionList EditAction × Store)
  | [] => some (l, s)
  | a :: rest =>
    match l.add editSpec a s with
    | (l2, s2, Except.ok ()) => addAll l2 s2 rest
    | (_, _, Except.error _) => none

/-- Undo `n` times through `ActionList::undo`, requiring every undo to
succeed and actually undo an action. -/
def undoAll (sp : ActionSpec α σ ε) :
    Nat → ActionList α → σ → Option (ActionList α × σ)
  | 0, l, s => some (l, s)
  | n + 1, l, s =>
    match l.undo sp s with
    | some (l2, s2, Except.ok (some ())) => undoAll sp n l2 s2
    | _ => none

/-! ## Constrained view (`src/constrained_wrapper.rs`) -/

/-- `IntoOffsetError`. -/
inductive IntoOffsetError
  | OutOfLowerBounds
  | OutOfUpperBounds
  deriving DecidableEq, Repr

/-- The `std::io::ErrorKind` values these code paths produce: every
`IntoOffsetError` and every seek-arithmetic failure is converted to
`ErrorKind::InvalidInput`. -/
inductive IoErrorKind
  | InvalidInput
  deriving DecidableEq, Repr

/-- `OffsetError`. -/
inductive OffsetError
  | Negative
  deriving DecidableEq, Repr

/-- `std::io::SeekFrom` (`fromEnd` stands for `SeekFrom::End`). -/
inductive SeekFrom
  | start (p : Nat)
  | current (delta : Int)
  | fromEnd (delta : Int)
  deriving DecidableEq, Repr

/-- `negative_i64_into_u64_offset`: negate a negative `i64` into a `u64`.
`i64::MIN.checked_neg()` is `None`, every other negative value negates into
its magnitude (`try_into::<u64>()` then always succeeds). -/
def negative_i64_into_u64_offset (offset : Int) : Except OffsetError Nat :=
  if offset = I64_MIN then Except.error OffsetError.Negative
  else Except.ok offset.natAbs

/-- `apply_offset`: add a signed `i64` delta to a `u64` position with checked
arithmetic.  `checked_sub` fails when the magnitude exceeds the position;
`checked_add` fails when the sum leaves the `u64` range (the source maps that
overflow to `OffsetError::Negative` as well). -/
def apply_offset (position : Nat) (offset : Int) : Except OffsetError Nat :=
  if offset < 0 then
    match negative_i64_into_u64_offset offset with
    | Except.error e => Except.error e
    | Except.ok off =>
      if off ≤ position then Except.ok (position - off)
      else Except.error OffsetError.Negative
  else
    if position + offset.toNat ≤ U64_MAX then Except.ok (position + offset.toNat)
    else Except.error OffsetError.Negative

/-- `ConstrainedWrapper`: a store plus the window `[rstart, rend]`
(`range.start` / `range.end`). -/
structure ConstrainedWrapper where
  reader : Store
  rstart : Nat
  rend : Nat
  deriving DecidableEq, Repr

namespace ConstrainedWrapper

/-- `ConstrainedWrapper::position_from_offset`: the source computes
`offset + range.start` with a plain (unchecked) `u64` addition, which wraps
modulo `2^64` in release builds (and panics in debug builds); the wrap-around
is modelled explicitly. -/
def position_from_offset (cw : ConstrainedWrapper) (offset : Nat) : Nat :=
  (offset + cw.rstart) % 2 ^ 64

/-- `ConstrainedWrapper::position_into_offset`. -/
def position_into_offset (cw : ConstrainedWrapper) (position : Nat) :
    Except IntoOffsetError Nat :=
  if position > cw.rend then Except.error IntoOffsetError.OutOfUpperBounds
  else if position < cw.rstart then Except.error IntoOffsetError.OutOfLowerBounds
  else Except.ok (position - cw.rstart)

/-- `Seek::seek` for `ConstrainedWrapper`.  Returns the wrapper (the store
may have moved even on the failure paths past the physical seek) and the
offset result.  Mirrors the source stage by stage: pick the base and delta,
apply the delta with `apply_offset`, clamp the destination down to the
store's stream length, physically seek, and convert the actual resulting
position back into an offset. -/
def seek (cw : ConstrainedWrapper) (sf : SeekFrom) :
    ConstrainedWrapper × Except IoErrorKind Nat :=
  let po : Except IoErrorKind (Nat × Int) :=
    match sf with
    | SeekFrom.current delta => Except.ok (cw.reader.streamPosition, delta)
    | SeekFrom.fromEnd delta => Except.ok (cw.rend, delta)
    | SeekFrom.start p =>
      -- `range.start.checked_add(p)` fails on u64 overflow
      if cw.rstart + p ≤ U64_MAX then Except.ok (cw.rstart + p, 0)
      else Except.error IoErrorKind.InvalidInput
  match po with
  | Except.error e => (cw, Except.error e)
  | Except.ok (position, delta) =>
    match apply_offset position delta with
    | Except.error _ => (cw, Except.error IoErrorKind.InvalidInput)
    | Except.ok dest =>
      let dest2 := min dest cw.reader.streamLen
      let r2 := { cw with reader := cw.reader.seek dest2 }
      match r2.position_into_offset dest2 with
      | Except.error _ => (r2, Except.error IoErrorKind.InvalidInput)
      | Except.ok off => (r2, Except.ok off)

/-- `ConstrainedWrapper::remaining_bytes`: current offset via
`seek(Current(0))`, the end offset via `position_into_offset(range.end)`,
then `checked_sub(..).unwrap()`.  `none` models the unwrap panicking
(unreachable: `seek` never returns an offset above the end offset). -/
def remaining_bytes (cw : ConstrainedWrapper) :
    Option (ConstrainedWrapper × Except IoErrorKind Nat) :=
  match cw.seek (SeekFrom.current 0) with
  | (r2, Except.error e) => some (r2, Except.error e)
  | (r2, Except.ok current_offset) =>
    match r2.position_into_offset r2.rend with
    | Except.error _ => some (r2, Except.error IoErrorKind.InvalidInput)
    | Except.ok offset_end =>
      if current_offset ≤ offset_end then
        some (r2, Except.ok (offset_end - current_offset))
      else none

/-- `Read::read` for `ConstrainedWrapper`: cap the transfer at
`remaining_bytes`, return `Ok` with zero bytes when nothing fits, otherwise
read into the buffer prefix.  The buffer is modelled by its length; the
returned byte list is the transfer. -/
def read (cw : ConstrainedWrapper) (buflen : Nat) :
    Option (ConstrainedWrapper × Except IoErrorKind (List Nat)) :=
  match cw.remaining_bytes with
  | none => none
  | some (r2, Except.error e) => some (r2, Except.error e)
  | some (r2, Except.ok remaining) =>
    let max_length := min remaining buflen
    if max_length = 0 then
      -- EOF: there are no more bytes to read
      some (r2, Except.ok [])
    else
      match r2.reader.read max_length with
      | (bytes, s2) => some ({ r2 with reader := s2 }, Except.ok bytes)

/-- `Write::write` for `ConstrainedWrapper`: 0 bytes at or past `range.end`,
otherwise write the buffer prefix that fits in `remaining_bytes`. -/
def write (cw : ConstrainedWrapper) (buf : List Nat) :
    Option (ConstrainedWrapper × Except IoErrorKind Nat) :=
  let absolute_position := cw.reader.streamPosition
  if cw.rend ≤ absolute_position then some (cw, Except.ok 0)
  else
    match cw.remaining_bytes with
    | none => none
    | some (r2, Except.error e) => some (r2, Except.error e)
    | some (r2, Except.ok remaining) =>
      let max_length := min remaining buf.length
      some ({ r2 with reader := r2.reader.write (buf.take max_length) },
        Except.ok max_length)

end ConstrainedWrapper

/-- Run `EditAction.apply` on bare data (cursor position 0); `apply` seeks
before every access, so only the data matters. -/
def EditAction.applyData (a : EditAction) (d : List Nat) :
    Option (EditAction × List Nat) :=
  match EditAction.apply a ⟨d, 0⟩ with
  | (a2, s2, none) => some (a2, s2.data)
  | (_, _, some _) => none

/-- The replay invariant for an edit-action log over a cursor store: `ds i`
is the store content after replaying the first `i` logged actions from the
baseline `d0`.  The cursor respects `index ≤ length`, the store currently
holds the content at the cursor, and every logged action maps its pre-state
bytes to its post-state bytes as a fixed point of `apply` (its
`previous_data` already holds the recorded slice). -/
def ChainDs (d0 : List Nat) (l : ActionList EditAction) (s : Store)
    (ds : Nat → List Nat) : Prop :=
  l.index ≤ l.actions.length ∧ ds 0 = d0 ∧ ds l.index = s.data ∧
  ∀ i a, l.actions.get? i = some a →
    EditAction.applyData a (ds i) = some (a, ds (i + 1))

/-- The replay invariant, with the replay contents existential. -/
def ChainInv (d0 : List Nat) (l : ActionList EditAction) (s : Store) : Prop :=
  ∃ ds, ChainDs d0 l s ds

/-- A small concrete action implementation over `Nat` stores, used to
exercise the generic `ActionList` theorems on closed inputs: `apply` adds
the action value to the store but fails on action values above 10,
`unapply` subtracts it. -/
def natSpec : ActionSpec Nat Nat Unit :=
  { apply := fun a s => (a, if 10 < a then s else s + a,
      if 10 < a then some () else none),
    unapply := fun a s => (a, s - a, none) }

/-! ## Helper lemmas -/

/-- Setting a list element to itself is the identity. -/
theorem list_set_get_self (l : List α) (i : Nat) (h : i < l.length) :
    l.set i (l.get ⟨i, h⟩) = l := by
  apply List.ext_getElem
  · simp
  · intro j h1 h2
    rw [List.getElem_set]
    split
    · subst j; rfl
    · rfl

/-- The guard conditions force `apply` to succeed with exactly the
characterized results: the action keeps its position and new bytes and
records the overwritten slice, the store carries the new bytes spliced in
at `position`. -/
theorem EditAction.apply_ok_of (a : EditAction) (s : Store)
    (h1 : u64SatAdd a.position a.new_data.length < s.data.length)
    (h2 : a.position + a.new_data.length ≤ s.data.length) :
    EditAction.apply a s =
      ({ position := a.position,
         previous_data := (s.data.drop a.position).take a.new_data.length,
         new_data := a.new_data },
       { data := s.data.take a.position ++ a.new_data ++
           s.data.drop (a.position + a.new_data.length),
         pos := a.position + a.new_data.length }, none) := by
  have hg : ¬ u64SatAdd a.position a.new_data.length ≥ s.data.length := by omega
  have hp : ¬ (s.data.length < a.position) := by omega
  unfold EditAction.apply
  simp [Store.streamLen, hg, Store.readExact, Store.seek, Store.write, h2, hp]

/-- Inversion for a successful `EditAction.apply`. -/
theorem EditAction.apply_ok {a a2 : EditAction} {s s2 : Store}
    (h : EditAction.apply a s = (a2, s2, none)) :
    a.position + a.new_data.length ≤ s.data.length ∧
    u64SatAdd a.position a.new_data.length < s.data.length ∧
    a2 = { position := a.position,
           previous_data := (s.data.drop a.position).take a.new_data.length,
           new_data := a.new_data } ∧
    s2 = { data := s.data.take a.position ++ a.new_data ++
             s.data.drop (a.position + a.new_data.length),
           pos := a.position + a.new_data.length } := by
  by_cases hg : u64SatAdd a.position a.new_data.length ≥ s.data.length
  · unfold EditAction.apply at h
    simp [Store.streamLen, hg] at h
  · by_cases hr : a.position + a.new_data.length ≤ s.data.length
    · rw [EditAction.apply_ok_of a s (by omega) hr] at h
      simp only [Prod.mk.injEq] at h
      exact ⟨hr, by omega, h.1.symm, h.2.1.symm⟩
    · unfold EditAction.apply at h
      simp [Store.streamLen, hg, Store.readExact, Store.seek, hr] at h

/-- Inversion for a successful `EditAction.applyData`. -/
theorem EditAction.applyData_ok {a a2 : EditAction} {d d2 : List Nat}
    (h : EditAction.applyData a d = some (a2, d2)) :
    a.position + a.new_data.length ≤ d.length ∧
    u64SatAdd a.position a.new_data.length < d.length ∧
    a2 = { position := a.position,
           previous_data := (d.drop a.position).take a.new_data.length,
           new_data := a.new_data } ∧
    d2 = d.take a.position ++ a.new_data ++ d.drop (a.position + a.new_data.length) := by
  unfold EditAction.applyData at h
  rcases hm : EditAction.apply a ⟨d, 0⟩ with ⟨a1, s1, e⟩
  rw [hm] at h
  cases e with
  | none =>
    simp only [Option.some.injEq, Prod.mk.injEq] at h
    obtain ⟨rfl, rfl⟩ := h
    obtain ⟨h1, h2, h3, h4⟩ := EditAction.apply_ok hm
    exact ⟨h1, h2, h3, by rw [h4]⟩
  | some err => simp at h

/-- A successful `EditAction.apply` only depends on the store's bytes, not
on its cursor position. -/
theorem EditAction.applyData_of_apply {a a2 : EditAction} {s s2 : Store}
    (h : EditAction.apply a s = (a2, s2, none)) :
    EditAction.applyData a s.data = some (a2, s2.data) := by
  obtain ⟨h1, h2, h3, h4⟩ := EditAction.apply_ok h
  unfold EditAction.applyData
  rw [EditAction.apply_ok_of a ⟨s.data, 0⟩ h2 h1]
  rw [h3, h4]

/-- Conversely, a successful `applyData` runs successfully from any cursor
position, with the same resulting action and bytes. -/
theorem EditAction.apply_of_applyData {a a2 : EditAction} {d d2 : List Nat}
    (h : EditAction.applyData a d = some (a2, d2)) (p : Nat) :
    EditAction.apply a ⟨d, p⟩ =
      (a2, ⟨d2, a.position + a.new_data.length⟩, none) := by
  obtain ⟨h1, h2, h3, h4⟩ := EditAction.applyData_ok h
  rw [EditAction.apply_ok_of a ⟨d, p⟩ h2 h1, h3, h4]

/-- Re-applying an already applied edit action recomputes the same
`previous_data` and the same bytes: a successful `applyData` result is a
fixed point of `applyData` on the same input bytes. -/
theorem EditAction.applyData_fix {a a2 : EditAction} {d d2 : List Nat}
    (h : EditAction.applyData a d = some (a2, d2)) :
    EditAction.applyData a2 d = some (a2, d2) := by
  obtain ⟨h1, h2, h3, h4⟩ := EditAction.applyData_ok h
  subst h3 h4
  unfold EditAction.applyData
  rw [EditAction.apply_ok_of
    { position := a.position,
      previous_data := (d.drop a.position).take a.new_data.length,
      new_data := a.new_data } ⟨d, 0⟩ (by simpa using h2) (by simpa using h1)]

/-- A successful edit action never changes the store length. -/
theorem EditAction.applyData_length {a a2 : EditAction} {d d2 : List Nat}
    (h : EditAction.applyData a d = some (a2, d2)) : d2.length = d.length := by
  obtain ⟨h1, _, _, h4⟩ := EditAction.applyData_ok h
  subst h4
  simp only [List.length_append, List.length_take, List.length_drop]
  omega

/-- Undoing a successfully applied edit action restores the pre-edit bytes,
from any cursor position. -/
theorem EditAction.unapply_restore {a a2 : EditAction} {d d2 : List Nat}
    (h : EditAction.applyData a d = some (a2, d2)) (p : Nat) :
    EditAction.unapply a2 ⟨d2, p⟩ =
      (a2, ⟨d, a.position + a.new_data.length⟩, none) := by
  obtain ⟨h1, h2, h3, h4⟩ := EditAction.applyData_ok h
  have hlen : d2.length = d.length := EditAction.applyData_length h
  have hp : a.position ≤ d.length := by omega
  have htk : (d.take a.position).length = a.position := by
    simp [List.length_take]; omega
  have hnopad : ¬ (d2.length < a2.position) := by rw [h3]; simp; omega
  have hprevlen : a2.previous_data.length = a.new_data.length := by
    rw [h3]; simp [List.length_take, List.length_drop]; omega
  have htake : d2.take a2.position = d.take a.position := by
    rw [h3, h4]
    rw [List.append_assoc, List.take_left' htk]
  have hdrop : d2.drop (a2.position + a2.previous_data.length) =
      d.drop (a.position + a.new_data.length) := by
    rw [hprevlen, h3, h4]
    apply List.drop_left'
    simp [List.length_take]
    omega
  have hdata : d.take a.position ++ (d.drop a.position).take a.new_data.length ++
      d.drop (a.position + a.new_data.length) = d := by
    rw [List.append_assoc, ← List.drop_drop, List.take_append_drop, List.take_append_drop]
  unfold EditAction.unapply Store.seek Store.write
  dsimp only
  rw [if_neg hnopad, htake, hdrop]
  rw [h3]
  simp only [Prod.mk.injEq, Store.mk.injEq]
  refine ⟨trivial, ⟨?_, ?_⟩, trivial⟩
  · exact hdata
  · simp [List.length_take, List.length_drop]
    omega


/-- Setting a list element to the value it already holds is the identity. -/
theorem list_set_of_getq {l : List α} {i : Nat} {a : α}
    (h : l.get? i = some a) : l.set i a = l := by
  have hlt : i < l.length := (List.get?_eq_some.mp h).1
  have hv : l.get ⟨i, hlt⟩ = a := by
    have := List.get?_eq_get hlt
    rw [this] at h
    exact (Option.some.injEq _ _ ▸ h : _)
  rw [← hv]
  exact list_set_get_self l i hlt

/-! ## The action-log replay invariant (spec §4.4) -/

/-- A fresh action list satisfies the replay invariant with its store's
current bytes as baseline. -/
theorem chainDs_new (s : Store) :
    ChainDs s.data ActionList.new s (fun _ => s.data) := by
  refine ⟨by simp [ActionList.new], rfl, rfl, ?_⟩
  intro i a h
  simp [ActionList.new] at h

/-- A successful `ActionList::add` of an edit action preserves the replay
invariant, extending the replay contents by the new post-state. -/
theorem chainDs_add {d0 : List Nat} {l l2 : ActionList EditAction}
    {s s2 : Store} {ds : Nat → List Nat} {a : EditAction}
    (hC : ChainDs d0 l s ds)
    (h : l.add editSpec a s = (l2, s2, Except.ok ())) :
    ChainDs d0 l2 s2 (fun i => if i ≤ l.index then ds i else s2.data) ∧
    l2.index = l.index + 1 ∧
    l2.actions.length = l.index + 1 := by
  obtain ⟨hle, h0, hcur, hstep⟩ := hC
  unfold ActionList.add at h
  rcases hm : editSpec.apply a s with ⟨a2, s2x, e⟩
  rw [hm] at h
  cases e with
  | some err => simp at h
  | none =>
    simp only [ActionList.clear_future, Prod.mk.injEq] at h
    obtain ⟨hl2, hs2, -⟩ := h
    have happ : EditAction.apply a s = (a2, s2, none) := by
      rw [← hs2]; exact hm
    have hAD : EditAction.applyData a s.data = some (a2, s2.data) :=
      EditAction.applyData_of_apply happ
    have hAD2 : EditAction.applyData a2 s.data = some (a2, s2.data) :=
      EditAction.applyData_fix hAD
    have htklen : (l.actions.take l.index).length = l.index := by
      simp [List.length_take]; omega
    have hlen2 : l2.actions.length = l.index + 1 := by
      rw [← hl2]; simp [htklen]
    have hidx2 : l2.index = l.index + 1 := by rw [← hl2]
    have hacts2 : l2.actions = l.actions.take l.index ++ [a2] := by rw [← hl2]
    refine ⟨⟨by omega, by simp [h0], ?_, ?_⟩, hidx2, hlen2⟩
    · rw [hidx2]
      simp
    · intro i b hb
      rw [hacts2] at hb
      rcases Nat.lt_or_ge i l.index with hilt | hige
      · have hb2 : l.actions.get? i = some b := by
          have h1 : i < (l.actions.take l.index).length := by omega
          rw [List.get?_eq_getElem?, List.getElem?_append_left h1] at hb
          rw [List.get?_eq_getElem?]
          rw [List.getElem?_take] at hb
          simpa [hilt] using hb
        have hi1 : i ≤ l.index := by omega
        have hi2 : i + 1 ≤ l.index := by omega
        have e1 : (if i ≤ l.index then ds i else s2.data) = ds i := if_pos hi1
        have e2 : (if i + 1 ≤ l.index then ds (i + 1) else s2.data) = ds (i + 1) :=
          if_pos hi2
        dsimp only
        rw [e1, e2]
        exact hstep i b hb2
      · have hieq : i = l.index := by
          have hlt : i < (l.actions.take l.index ++ [a2]).length :=
            (List.get?_eq_some.mp hb).1
          simp [htklen] at hlt
          omega
        have hbeq : b = a2 := by
          rw [List.get?_eq_getElem?, List.getElem?_append_right (by omega),
            htklen, hieq] at hb
          simpa using hb.symm
        subst hieq
        subst hbeq
        have e1 : (if l.index ≤ l.index then ds l.index else s2.data) = s.data := by
          rw [if_pos (le_refl _)]; exact hcur
        have e2 : (if l.index + 1 ≤ l.index then ds (l.index + 1) else s2.data)
            = s2.data := by
          rw [if_neg (by omega)]
        dsimp only
        rw [e1, e2]
        exact hAD2

/-- With a non-empty past, `ActionList::undo` on an edit-action log holding
the replay invariant succeeds, steps the store bytes back to the previous
replay state, decrements the cursor, and preserves the invariant. -/
theorem chainDs_undo {d0 : List Nat} {l : ActionList EditAction} {s : Store}
    {ds : Nat → List Nat} (hC : ChainDs d0 l s ds) (hpos : 0 < l.index) :
    ∃ s2, l.undo editSpec s =
        some (⟨l.actions, l.index - 1⟩, s2, Except.ok (some ())) ∧
      s2.data = ds (l.index - 1) ∧
      ChainDs d0 ⟨l.actions, l.index - 1⟩ s2 ds := by
  obtain ⟨hle, h0, hcur, hstep⟩ := hC
  have hidx : l.index - 1 < l.actions.length := by omega
  obtain ⟨aP, hget⟩ : ∃ aP, l.actions.get? (l.index - 1) = some aP :=
    ⟨_, List.get?_eq_get hidx⟩
  have happ := hstep (l.index - 1) aP hget
  have harith : l.index - 1 + 1 = l.index := by omega
  rw [harith, hcur] at happ
  have hun2 : EditAction.unapply aP s =
      (aP, ⟨ds (l.index - 1), aP.position + aP.new_data.length⟩, none) :=
    EditAction.unapply_restore happ s.pos
  refine ⟨⟨ds (l.index - 1), aP.position + aP.new_data.length⟩, ?_, rfl,
    by dsimp only; omega, h0, rfl, hstep⟩
  unfold ActionList.undo
  rw [if_neg (by omega : ¬ l.index = 0), hget]
  have hun3 : editSpec.unapply aP s =
      (aP, ⟨ds (l.index - 1), aP.position + aP.new_data.length⟩, none) := hun2
  dsimp only
  rw [hun3]
  dsimp only
  rw [list_set_of_getq hget]

/-- With a non-empty future, `ActionList::redo` on an edit-action log
holding the replay invariant succeeds, steps the store bytes forward to the
next replay state, increments the cursor, and preserves the invariant. -/
theorem chainDs_redo {d0 : List Nat} {l : ActionList EditAction} {s : Store}
    {ds : Nat → List Nat} (hC : ChainDs d0 l s ds)
    (hlt : l.index < l.actions.length) :
    ∃ s2, l.redo editSpec s =
        some (⟨l.actions, l.index + 1⟩, s2, Except.ok (some ())) ∧
      s2.data = ds (l.index + 1) ∧
      ChainDs d0 ⟨l.actions, l.index + 1⟩ s2 ds := by
  obtain ⟨hle, h0, hcur, hstep⟩ := hC
  obtain ⟨aP, hget⟩ : ∃ aP, l.actions.get? l.index = some aP :=
    ⟨_, List.get?_eq_get hlt⟩
  have happ := hstep l.index aP hget
  rw [hcur] at happ
  have happly2 : editSpec.apply aP s =
      (aP, ⟨ds (l.index + 1), aP.position + aP.new_data.length⟩, none) :=
    EditAction.apply_of_applyData happ s.pos
  refine ⟨⟨ds (l.index + 1), aP.position + aP.new_data.length⟩, ?_, rfl,
    by dsimp only; omega, h0, rfl, hstep⟩
  unfold ActionList.redo
  rw [if_neg (by omega : ¬ l.actions.length ≤ l.index), hget]
  dsimp only
  rw [happly2]
  dsimp only
  rw [list_set_of_getq hget]

/-- A run of successful `add`s preserves the replay invariant and advances
the cursor by the number of actions added. -/
theorem chainInv_addAll : ∀ (acts : List EditAction)
    {l l2 : ActionList EditAction} {s s2 : Store} {d0 : List Nat},
    ChainInv d0 l s → addAll l s acts = some (l2, s2) →
    ChainInv d0 l2 s2 ∧ l2.index = l.index + acts.length := by
  intro acts
  induction acts with
  | nil =>
    intro l l2 s s2 d0 hC h
    unfold addAll at h
    simp only [Option.some.injEq, Prod.mk.injEq] at h
    obtain ⟨rfl, rfl⟩ := h
    exact ⟨hC, by simp⟩
  | cons a rest ih =>
    intro l l2 s s2 d0 hC h
    unfold addAll at h
    rcases hadd : l.add editSpec a s with ⟨lm, sm, r⟩
    rw [hadd] at h
    cases r with
    | error e => simp at h
    | ok u =>
      cases u
      obtain ⟨ds, hds⟩ := hC
      obtain ⟨hC2, hidx, -⟩ := chainDs_add hds hadd
      obtain ⟨hC3, hidx3⟩ := ih ⟨_, hC2⟩ h
      refine ⟨hC3, ?_⟩
      rw [hidx3, hidx]
      simp
      omega

/-- Undoing exactly the whole past of an edit-action log holding the replay
invariant succeeds and restores the baseline bytes. -/
theorem chainDs_undoAll_of_eq : ∀ (n : Nat) {l : ActionList EditAction}
    {s : Store} {ds : Nat → List Nat} {d0 : List Nat},
    ChainDs d0 l s ds → n = l.index →
    ∃ l2 s2, undoAll editSpec n l s = some (l2, s2) ∧ s2.data = d0 ∧
      l2.index = 0 := by
  intro n
  induction n with
  | zero =>
    intro l s ds d0 hC hn
    obtain ⟨-, h0, hcur, -⟩ := hC
    refine ⟨l, s, rfl, ?_, by omega⟩
    rw [← hcur, ← hn, h0]
  | succ n ih =>
    intro l s ds d0 hC hn
    have hpos : 0 < l.index := by omega
    obtain ⟨s2, hundo, hs2, hC2⟩ := chainDs_undo hC hpos
    have hn2 : n = (⟨l.actions, l.index - 1⟩ : ActionList EditAction).index := by
      dsimp only
      omega
    obtain ⟨l3, s3, hrec, hd, hidx⟩ := ih hC2 hn2
    refine ⟨l3, s3, ?_, hd, hidx⟩
    unfold undoAll
    rw [hundo]
    exact hrec

/-- Any run of fully successful undos preserves the replay invariant, keeps
the action sequence intact, and moves the cursor back by the run length. -/
theorem chainDs_undoAll_preserve : ∀ (n : Nat) {l l2 : ActionList EditAction}
    {s s2 : Store} {ds : Nat → List Nat} {d0 : List Nat},
    ChainDs d0 l s ds → undoAll editSpec n l s = some (l2, s2) →
    ChainDs d0 l2 s2 ds ∧ l2.actions = l.actions ∧ l2.index = l.index - n := by
  intro n
  induction n with
  | zero =>
    intro l l2 s s2 ds d0 hC h
    unfold undoAll at h
    simp only [Option.some.injEq, Prod.mk.injEq] at h
    obtain ⟨rfl, rfl⟩ := h
    exact ⟨hC, rfl, by omega⟩
  | succ n ih =>
    intro l l2 s s2 ds d0 hC h
    unfold undoAll at h
    by_cases hpos : l.index = 0
    · have hnoop : l.undo editSpec s = some (l, s, Except.ok none) := by
        unfold ActionList.undo
        rw [if_pos hpos]
      rw [hnoop] at h
      simp at h
    · obtain ⟨s2', hundo, hs2', hC2⟩ := chainDs_undo hC (by omega)
      rw [hundo] at h
      obtain ⟨hC3, hacts, hidx⟩ := ih hC2 h
      refine ⟨hC3, hacts, ?_⟩
      rw [hidx]
      dsimp only
      omega

/-! ## Claim theorems -/

/-- C1: for every edit action and store, if `position + len(new_bytes)` is
at least the store's current length, `EditAction::apply` rejects with the
Invalid error and leaves the store untouched and the action unmutated, and
`ActionList::add` hands the error back together with the unconsumed action
while the log's action sequence, cursor and the store stay unchanged. -/
theorem c1_oversized_edit_rejected (a : EditAction) (s : Store)
    (l : ActionList EditAction)
    (hu64 : s.data.length ≤ U64_MAX)
    (hover : s.data.length ≤ a.position + a.new_data.length) :
    EditAction.apply a s = (a, s, some ActionError.Invalid) ∧
    l.add editSpec a s = (l, s, Except.error (a, ActionError.Invalid)) := by
  have hg : u64SatAdd a.position a.new_data.length ≥ s.data.length := by
    unfold u64SatAdd
    exact le_min hover hu64
  have h1 : EditAction.apply a s = (a, s, some ActionError.Invalid) := by
    unfold EditAction.apply
    rw [if_pos (by exact hg)]
  refine ⟨h1, ?_⟩
  unfold ActionList.add
  have h2 : editSpec.apply a s = (a, s, some ActionError.Invalid) := h1
  rw [h2]

/-- Witness for C1 at a concrete oversized edit. -/
theorem c1_oversized_edit_rejected_witness :
    EditAction.apply (EditAction.new 6 [1, 2, 3]) ⟨[7, 7, 7, 7, 7, 7, 7, 7], 0⟩ =
      (EditAction.new 6 [1, 2, 3], ⟨[7, 7, 7, 7, 7, 7, 7, 7], 0⟩,
        some ActionError.Invalid) ∧
    ActionList.add editSpec ActionList.new (EditAction.new 6 [1, 2, 3])
        ⟨[7, 7, 7, 7, 7, 7, 7, 7], 0⟩ =
      (ActionList.new, ⟨[7, 7, 7, 7, 7, 7, 7, 7], 0⟩,
        Except.error (EditAction.new 6 [1, 2, 3], ActionError.Invalid)) :=
  c1_oversized_edit_rejected (EditAction.new 6 [1, 2, 3])
    ⟨[7, 7, 7, 7, 7, 7, 7, 7], 0⟩ ActionList.new (by decide) (by decide)

/-- C3: when the future partition is non-empty, a successful
`ActionList::add` drops every entry from the cursor on before appending the
new action; afterwards the future is empty and a subsequent redo returns
the no-op result (not an error). -/
theorem c3_add_drops_future {α σ ε : Type} (sp : ActionSpec α σ ε)
    (l : ActionList α) (a : α) (s : σ) (a2 : α) (s2 : σ)
    (hfut : l.index < l.actions.length)
    (happ : sp.apply a s = (a2, s2, none)) :
    l.add sp a s =
      (⟨l.actions.take l.index ++ [a2], l.index + 1⟩, s2, Except.ok ()) ∧
    (⟨l.actions.take l.index ++ [a2], l.index + 1⟩ : ActionList α).future_len
      = 0 ∧
    ActionList.redo sp ⟨l.actions.take l.index ++ [a2], l.index + 1⟩ s2 =
      some (⟨l.actions.take l.index ++ [a2], l.index + 1⟩, s2,
        Except.ok none) := by
  have hlen : (l.actions.take l.index ++ [a2]).length = l.index + 1 := by
    simp [List.length_take]
    omega
  refine ⟨?_, ?_, ?_⟩
  · unfold ActionList.add ActionList.clear_future
    rw [happ]
  · unfold ActionList.future_len
    dsimp only
    omega
  · unfold ActionList.redo
    rw [if_pos (by dsimp only; omega)]

/-- Witness for C3 with a one-entry future. -/
theorem c3_add_drops_future_witness :
    ActionList.add natSpec ⟨[1, 2, 3], 1⟩ 5 0 = (⟨[1, 5], 2⟩, 5, Except.ok ()) ∧
    (⟨[1, 5], 2⟩ : ActionList Nat).future_len = 0 ∧
    ActionList.redo natSpec ⟨[1, 5], 2⟩ 5 = some (⟨[1, 5], 2⟩, 5, Except.ok none) :=
  c3_add_drops_future natSpec ⟨[1, 2, 3], 1⟩ 5 0 5 5 (by decide) (by decide)

/-- C5: `ActionList::undo` returns the no-op result on an empty past, and
otherwise unapplies the action immediately before the cursor, decrementing
the cursor exactly on success and leaving it unchanged on failure;
symmetrically `ActionList::redo` returns the no-op result on an empty
future and otherwise applies the action at the cursor, incrementing the
cursor exactly on success. -/
theorem c5_undo_redo_cursor_moves {α σ ε : Type} (sp : ActionSpec α σ ε)
    (l : ActionList α) (s : σ) :
    (l.index = 0 → l.undo sp s = some (l, s, Except.ok none)) ∧
    (∀ a a2 s2, 0 < l.index → l.actions.get? (l.index - 1) = some a →
      (sp.unapply a s = (a2, s2, none) →
        l.undo sp s = some (⟨l.actions.set (l.index - 1) a2, l.index - 1⟩,
          s2, Except.ok (some ()))) ∧
      (∀ e, sp.unapply a s = (a2, s2, some e) →
        l.undo sp s = some (⟨l.actions.set (l.index - 1) a2, l.index⟩,
          s2, Except.error e))) ∧
    (l.actions.length ≤ l.index → l.redo sp s = some (l, s, Except.ok none)) ∧
    (∀ a a2 s2, l.actions.get? l.index = some a →
      (sp.apply a s = (a2, s2, none) →
        l.redo sp s = some (⟨l.actions.set l.index a2, l.index + 1⟩,
          s2, Except.ok (some ()))) ∧
      (∀ e, sp.apply a s = (a2, s2, some e) →
        l.redo sp s = some (⟨l.actions.set l.index a2, l.index⟩,
          s2, Except.error e))) := by
  refine ⟨?_, ?_, ?_, ?_⟩
  · intro h
    unfold ActionList.undo
    rw [if_pos h]
  · intro a a2 s2 hpos hget
    constructor
    · intro hun
      unfold ActionList.undo
      rw [if_neg (by omega), hget]
      dsimp only
      rw [hun]
    · intro e hun
      unfold ActionList.undo
      rw [if_neg (by omega), hget]
      dsimp only
      rw [hun]
  · intro h
    unfold ActionList.redo
    rw [if_pos h]
  · intro a a2 s2 hget
    constructor
    · intro happ
      unfold ActionList.redo
      rw [if_neg (by
        have := (List.get?_eq_some.mp hget).1
        omega), hget]
      dsimp only
      rw [happ]
    · intro e happ
      unfold ActionList.redo
      rw [if_neg (by
        have := (List.get?_eq_some.mp hget).1
        omega), hget]
      dsimp only
      rw [happ]

/-- Witness for C5: the no-op, success and failure branches of undo and
redo at concrete logs. -/
theorem c5_undo_redo_cursor_moves_witness :
    ActionList.undo natSpec (⟨[], 0⟩ : ActionList Nat) 7 =
      some (⟨[], 0⟩, 7, Except.ok none) ∧
    ActionList.undo natSpec ⟨[3], 1⟩ 7 =
      some (⟨[3], 0⟩, 4, Except.ok (some ())) ∧
    ActionList.redo natSpec ⟨[3], 1⟩ 7 = some (⟨[3], 1⟩, 7, Except.ok none) ∧
    ActionList.redo natSpec ⟨[3, 20], 1⟩ 7 =
      some (⟨[3, 20], 1⟩, 7, Except.error ()) := by
  refine ⟨(c5_undo_redo_cursor_moves natSpec ⟨[], 0⟩ 7).1 rfl, ?_, ?_, ?_⟩
  · exact ((c5_undo_redo_cursor_moves natSpec ⟨[3], 1⟩ 7).2.1 3 3 4
      (by decide) (by decide)).1 (by decide)
  · exact (c5_undo_redo_cursor_moves natSpec ⟨[3], 1⟩ 7).2.2.1 (by decide)
  · exact ((c5_undo_redo_cursor_moves natSpec ⟨[3, 20], 1⟩ 7).2.2.2 20 20 7
      (by decide)).2 () (by decide)

/-- C10: the cursor invariant `0 ≤ cursor ≤ len(actions)` holds for a new
log and is preserved by `add`, `undo` and `redo`, whether they succeed or
fail (and under the invariant, undo and redo never hit the out-of-bounds
panic). -/
theorem c10_cursor_invariant {α σ ε : Type} (sp : ActionSpec α σ ε)
    (l : ActionList α) (s : σ) (a : α)
    (hinv : l.index ≤ l.actions.length) :
    (ActionList.new : ActionList α).index ≤
      (ActionList.new : ActionList α).actions.length ∧
    (∀ l2 s2 r, l.add sp a s = (l2, s2, r) → l2.index ≤ l2.actions.length) ∧
    (∃ l2 s2 r, l.undo sp s = some (l2, s2, r) ∧
      l2.index ≤ l2.actions.length) ∧
    (∃ l2 s2 r, l.redo sp s = some (l2, s2, r) ∧
      l2.index ≤ l2.actions.length) := by
  refine ⟨by simp [ActionList.new], ?_, ?_, ?_⟩
  · intro l2 s2 r h
    unfold ActionList.add ActionList.clear_future at h
    rcases hm : sp.apply a s with ⟨a2, s2x, e⟩
    rw [hm] at h
    cases e with
    | some err =>
      simp only [Prod.mk.injEq] at h
      obtain ⟨rfl, -, -⟩ := h
      exact hinv
    | none =>
      simp only [Prod.mk.injEq] at h
      obtain ⟨hl2, -, -⟩ := h
      rw [← hl2]
      simp [List.length_take]
      omega
  · by_cases hpos : l.index = 0
    · refine ⟨l, s, Except.ok none, ?_, hinv⟩
      unfold ActionList.undo
      rw [if_pos hpos]
    · have hidx : l.index - 1 < l.actions.length := by omega
      obtain ⟨aP, hget⟩ : ∃ aP, l.actions.get? (l.index - 1) = some aP :=
        ⟨_, List.get?_eq_get hidx⟩
      rcases hm : sp.unapply aP s with ⟨a2, s2x, e⟩
      cases e with
      | some err =>
        refine ⟨⟨l.actions.set (l.index - 1) a2, l.index⟩, s2x,
          Except.error err, ?_, by simp [List.length_set]; omega⟩
        unfold ActionList.undo
        rw [if_neg hpos, hget]
        dsimp only
        rw [hm]
      | none =>
        refine ⟨⟨l.actions.set (l.index - 1) a2, l.index - 1⟩, s2x,
          Except.ok (some ()), ?_, by simp [List.length_set]; omega⟩
        unfold ActionList.undo
        rw [if_neg hpos, hget]
        dsimp only
        rw [hm]
  · by_cases hfut : l.actions.length ≤ l.index
    · refine ⟨l, s, Except.ok none, ?_, hinv⟩
      unfold ActionList.redo
      rw [if_pos hfut]
    · have hidx : l.index < l.actions.length := by omega
      obtain ⟨aP, hget⟩ : ∃ aP, l.actions.get? l.index = some aP :=
        ⟨_, List.get?_eq_get hidx⟩
      rcases hm : sp.apply aP s with ⟨a2, s2x, e⟩
      cases e with
      | some err =>
        refine ⟨⟨l.actions.set l.index a2, l.index⟩, s2x,
          Except.error err, ?_, by simp [List.length_set]; omega⟩
        unfold ActionList.redo
        rw [if_neg hfut, hget]
        dsimp only
        rw [hm]
      | none =>
        refine ⟨⟨l.actions.set l.index a2, l.index + 1⟩, s2x,
          Except.ok (some ()), ?_, by simp [List.length_set]; omega⟩
        unfold ActionList.redo
        rw [if_neg hfut, hget]
        dsimp only
        rw [hm]

/-- Witness for C10 at a concrete log with a past and a future entry. -/
theorem c10_cursor_invariant_witness :
    ((ActionList.new : ActionList Nat).index ≤
      (ActionList.new : ActionList Nat).actions.length) ∧
    (∀ l2 s2 r, ActionList.add natSpec ⟨[3, 4], 1⟩ 5 7 = (l2, s2, r) →
      l2.index ≤ l2.actions.length) ∧
    (∃ l2 s2 r, ActionList.undo natSpec ⟨[3, 4], 1⟩ 7 = some (l2, s2, r) ∧
      l2.index ≤ l2.actions.length) ∧
    (∃ l2 s2 r, ActionList.redo natSpec ⟨[3, 4], 1⟩ 7 = some (l2, s2, r) ∧
      l2.index ≤ l2.actions.length) :=
  c10_cursor_invariant natSpec ⟨[3, 4], 1⟩ 7 5 (by decide)

/-- C2: for every store and every sequence of edit actions successfully
applied through `ActionList::add`, undoing the whole past in reverse order
succeeds and restores exactly the pre-edit bytes; and after any number of
fully successful undos, a redo performed immediately after an undo (no
intervening add) succeeds and reproduces exactly the bytes held before that
undo. -/
theorem c2_apply_undo_redo_roundtrip (s : Store) (acts : List EditAction)
    (l1 : ActionList EditAction) (s1 : Store)
    (hadd : addAll ActionList.new s acts = some (l1, s1)) :
    l1.index = acts.length ∧
    (∃ l2 s2, undoAll editSpec l1.index l1 s1 = some (l2, s2) ∧
      s2.data = s.data) ∧
    (∀ (k : Nat) (lk : ActionList EditAction) (sk : Store)
      (lu : ActionList EditAction) (su : Store),
      undoAll editSpec k l1 s1 = some (lk, sk) →
      lk.undo editSpec sk = some (lu, su, Except.ok (some ())) →
      ∃ s3, lu.redo editSpec su =
          some (⟨lu.actions, lu.index + 1⟩, s3, Except.ok (some ())) ∧
        s3.data = sk.data) := by
  have hbase : ChainInv s.data ActionList.new s := ⟨_, chainDs_new s⟩
  obtain ⟨⟨ds, hds⟩, hidx⟩ := chainInv_addAll acts hbase hadd
  refine ⟨by simpa [ActionList.new] using hidx, ?_, ?_⟩
  · obtain ⟨l2, s2, hun, hd, -⟩ := chainDs_undoAll_of_eq l1.index hds rfl
    exact ⟨l2, s2, hun, hd⟩
  · intro k lk sk lu su hk hu
    obtain ⟨hCk, hacts, hidxk⟩ := chainDs_undoAll_preserve k hds hk
    by_cases hpos : lk.index = 0
    · have hnoop : lk.undo editSpec sk = some (lk, sk, Except.ok none) := by
        unfold ActionList.undo
        rw [if_pos hpos]
      rw [hnoop] at hu
      simp at hu
    · obtain ⟨s2', hundo, hs2', hC2⟩ := chainDs_undo hCk (by omega)
      rw [hundo] at hu
      simp only [Option.some.injEq, Prod.mk.injEq] at hu
      obtain ⟨hlu, hsu, -⟩ := hu
      have hlt : (⟨lk.actions, lk.index - 1⟩ : ActionList EditAction).index <
          (⟨lk.actions, lk.index - 1⟩ : ActionList EditAction).actions.length := by
        dsimp only
        have := hCk.1
        omega
      obtain ⟨s3, hredo, hd3, -⟩ := chainDs_redo hC2 hlt
      refine ⟨s3, ?_, ?_⟩
      · rw [← hlu, ← hsu]
        exact hredo
      · rw [hd3]
        have harith : (⟨lk.actions, lk.index - 1⟩ : ActionList EditAction).index + 1
            = lk.index := by
          dsimp only
          omega
        rw [harith]
        exact hCk.2.2.1

/-- Witness for C2: two edits on a six-byte store, fully undone, and the
undo/redo round trip at the state after the adds. -/
theorem c2_apply_undo_redo_roundtrip_witness :
    ((⟨[⟨1, [1], [9]⟩, ⟨2, [2, 3], [8, 8]⟩], 2⟩ : ActionList EditAction).index
      = 2) ∧
    (∃ l2 s2, undoAll editSpec 2 ⟨[⟨1, [1], [9]⟩, ⟨2, [2, 3], [8, 8]⟩], 2⟩
        ⟨[0, 9, 8, 8, 4, 5], 4⟩ = some (l2, s2) ∧
      s2.data = [0, 1, 2, 3, 4, 5]) ∧
    (∀ (k : Nat) (lk : ActionList EditAction) (sk : Store)
      (lu : ActionList EditAction) (su : Store),
      undoAll editSpec k ⟨[⟨1, [1], [9]⟩, ⟨2, [2, 3], [8, 8]⟩], 2⟩
        ⟨[0, 9, 8, 8, 4, 5], 4⟩ = some (lk, sk) →
      lk.undo editSpec sk = some (lu, su, Except.ok (some ())) →
      ∃ s3, lu.redo editSpec su =
          some (⟨lu.actions, lu.index + 1⟩, s3, Except.ok (some ())) ∧
        s3.data = sk.data) :=
  c2_apply_undo_redo_roundtrip ⟨[0, 1, 2, 3, 4, 5], 0⟩
    [EditAction.new 1 [9], EditAction.new 2 [8, 8]]
    ⟨[⟨1, [1], [9]⟩, ⟨2, [2, 3], [8, 8]⟩], 2⟩ ⟨[0, 9, 8, 8, 4, 5], 4⟩
    (by decide)

/-- Overwriting `buf2` at position `p` inside `d` leaves every index outside
`[p, p + buf2.length)` unchanged. -/
theorem write_outside_unchanged {d buf2 : List Nat} {p : Nat} (hp : p ≤ d.length)
    (i : Nat) (hout : i < p ∨ p + buf2.length ≤ i) :
    (d.take p ++ buf2 ++ d.drop (p + buf2.length)).get? i = d.get? i := by
  have htk : (d.take p).length = p := by simp; omega
  rcases hout with hlt | hge
  · rw [List.get?_eq_getElem?, List.get?_eq_getElem?]
    rw [List.append_assoc]
    rw [List.getElem?_append_left (by omega : i < (d.take p).length)]
    rw [List.getElem?_take]
    simp [hlt]
  · rw [List.get?_eq_getElem?, List.get?_eq_getElem?]
    have hlen2 : (d.take p ++ buf2).length = p + buf2.length := by simp; omega
    rw [List.getElem?_append_right (by rw [hlen2]; omega)]
    rw [hlen2, List.getElem?_drop]
    congr 1
    omega

/-- `ConstrainedWrapper::remaining_bytes` with the store inside the range
and inside the stream: it succeeds, leaves the view untouched, and reports
`range.end − position`. -/
theorem ConstrainedWrapper.remaining_bytes_in_range (cw : ConstrainedWrapper)
    (hsr : cw.rstart ≤ cw.rend) (hru : cw.rend ≤ U64_MAX)
    (hlo : cw.rstart ≤ cw.reader.pos) (hhi : cw.reader.pos ≤ cw.rend)
    (hin : cw.reader.pos ≤ cw.reader.data.length) :
    cw.remaining_bytes = some (cw, Except.ok (cw.rend - cw.reader.pos)) := by
  have hao : apply_offset cw.reader.pos 0 = Except.ok cw.reader.pos := by
    unfold apply_offset
    rw [if_neg (by omega : ¬ (0 : Int) < 0)]
    rw [if_pos (by
      show cw.reader.pos + (0 : Int).toNat ≤ U64_MAX
      have : (0 : Int).toNat = 0 := rfl
      omega)]
    rw [show (0 : Int).toNat = 0 from rfl, Nat.add_zero]
  have hmin : min cw.reader.pos cw.reader.data.length = cw.reader.pos :=
    Nat.min_eq_left hin
  unfold ConstrainedWrapper.remaining_bytes ConstrainedWrapper.seek
  dsimp only [Store.streamPosition, Store.streamLen]
  rw [hao]
  dsimp only
  rw [hmin]
  unfold ConstrainedWrapper.position_into_offset
  dsimp only
  rw [if_neg (by omega : ¬ cw.reader.pos > cw.rend),
    if_neg (by omega : ¬ cw.reader.pos < cw.rstart)]
  dsimp only
  rw [if_neg (by omega : ¬ cw.rend > cw.rend),
    if_neg (by omega : ¬ cw.rend < cw.rstart)]
  dsimp only
  rw [if_pos (by omega : cw.reader.pos - cw.rstart ≤ cw.rend - cw.rstart)]
  have harith : cw.rend - cw.rstart - (cw.reader.pos - cw.rstart) =
      cw.rend - cw.reader.pos := by omega
  rw [harith]
  rfl

/-- C6 as amended: on a constrained view whose store position lies inside
the range and within the stream length, `read` succeeds, transfers exactly the available
part of `min(range.end − position, buffer length)` bytes — returning 0
bytes cleanly (not an error) when that bound is 0 — never leaves the store
past `range.end`, and never changes the bytes; `write` returns 0 (not an
error) with the store sitting at `range.end`, and otherwise writes exactly
the buffer prefix of length `min(range.end − position, buffer length)` in
place, never touching a byte outside the range. -/
theorem c6_read_write_bounded (cw : ConstrainedWrapper) (buflen : Nat)
    (buf : List Nat)
    (hsr : cw.rstart ≤ cw.rend) (hru : cw.rend ≤ U64_MAX)
    (hlo : cw.rstart ≤ cw.reader.pos) (hhi : cw.reader.pos ≤ cw.rend)
    (hin : cw.reader.pos ≤ cw.reader.data.length) :
    (∃ bytes cw2, cw.read buflen = some (cw2, Except.ok bytes) ∧
      bytes.length = min (min (cw.rend - cw.reader.pos) buflen)
        (cw.reader.data.length - cw.reader.pos) ∧
      (min (cw.rend - cw.reader.pos) buflen = 0 → bytes = []) ∧
      cw2.reader.pos ≤ cw.rend ∧
      cw2.reader.data = cw.reader.data ∧
      cw2.rstart = cw.rstart ∧ cw2.rend = cw.rend) ∧
    (cw.reader.pos = cw.rend → cw.write buf = some (cw, Except.ok 0)) ∧
    (cw.reader.pos < cw.rend →
      ∃ cw2, cw.write buf = some (cw2,
          Except.ok (min (cw.rend - cw.reader.pos) buf.length)) ∧
        cw2.reader.data =
          cw.reader.data.take cw.reader.pos ++
          buf.take (min (cw.rend - cw.reader.pos) buf.length) ++
          cw.reader.data.drop (cw.reader.pos +
            min (cw.rend - cw.reader.pos) buf.length) ∧
        cw2.reader.pos =
          cw.reader.pos + min (cw.rend - cw.reader.pos) buf.length ∧
        cw2.reader.pos ≤ cw.rend ∧
        cw2.rstart = cw.rstart ∧ cw2.rend = cw.rend ∧
        (∀ i, i < cw.rstart ∨ cw.rend ≤ i →
          cw2.reader.data.get? i = cw.reader.data.get? i)) := by
  have hrb := cw.remaining_bytes_in_range hsr hru hlo hhi hin
  refine ⟨?_, ?_, ?_⟩
  · unfold ConstrainedWrapper.read
    rw [hrb]
    dsimp only
    by_cases hz : min (cw.rend - cw.reader.pos) buflen = 0
    · rw [if_pos hz]
      refine ⟨[], cw, rfl, ?_, fun _ => rfl, hhi, rfl, rfl, rfl⟩
      simp only [List.length_nil]
      omega
    · rw [if_neg hz]
      unfold Store.read
      dsimp only
      refine ⟨_, _, rfl, ?_, fun h => absurd h hz, ?_, rfl, rfl, rfl⟩
      · simp only [List.length_take, List.length_drop]
        omega
      · dsimp only
        omega
  · intro hat
    unfold ConstrainedWrapper.write
    dsimp only [Store.streamPosition]
    rw [if_pos (by omega : cw.rend ≤ cw.reader.pos)]
  · intro hlt
    unfold ConstrainedWrapper.write
    dsimp only [Store.streamPosition]
    rw [if_neg (by omega : ¬ cw.rend ≤ cw.reader.pos)]
    rw [hrb]
    dsimp only
    unfold Store.write
    rw [if_neg (by omega : ¬ cw.reader.data.length < cw.reader.pos)]
    have htklen : (buf.take (min (cw.rend - cw.reader.pos) buf.length)).length
        = min (cw.rend - cw.reader.pos) buf.length := by
      simp only [List.length_take]
      omega
    refine ⟨_, rfl, by rw [htklen], by dsimp only; rw [htklen], ?_, rfl, rfl, ?_⟩
    · dsimp only
      rw [htklen]
      omega
    · intro i hout
      dsimp only
      apply write_outside_unchanged hin
      rcases hout with h1 | h2
      · left; omega
      · right
        rw [htklen]
        omega

/-- Witness for C6 on a view `[1, 4]` over a six-byte store at position 2. -/
theorem c6_read_write_bounded_witness :
    (∃ bytes cw2,
      ConstrainedWrapper.read ⟨⟨[10, 11, 12, 13, 14, 15], 2⟩, 1, 4⟩ 2 =
        some (cw2, Except.ok bytes) ∧
      bytes.length = 2 ∧
      ((2 : Nat) = 0 → bytes = []) ∧
      cw2.reader.pos ≤ 4 ∧
      cw2.reader.data = [10, 11, 12, 13, 14, 15] ∧
      cw2.rstart = 1 ∧ cw2.rend = 4) ∧
    ((2 : Nat) = 4 →
      ConstrainedWrapper.write ⟨⟨[10, 11, 12, 13, 14, 15], 2⟩, 1, 4⟩ [7, 7, 7] =
        some (⟨⟨[10, 11, 12, 13, 14, 15], 2⟩, 1, 4⟩, Except.ok 0)) ∧
    ((2 : Nat) < 4 →
      ∃ cw2, ConstrainedWrapper.write ⟨⟨[10, 11, 12, 13, 14, 15], 2⟩, 1, 4⟩
          [7, 7, 7] = some (cw2, Except.ok 2) ∧
        cw2.reader.data = [10, 11] ++ [7, 7] ++ [14, 15] ∧
        cw2.reader.pos = 4 ∧
        cw2.reader.pos ≤ 4 ∧
        cw2.rstart = 1 ∧ cw2.rend = 4 ∧
        (∀ i, i < 1 ∨ 4 ≤ i →
          cw2.reader.data.get? i =
            ([10, 11, 12, 13, 14, 15] : List Nat).get? i)) :=
  c6_read_write_bounded ⟨⟨[10, 11, 12, 13, 14, 15], 2⟩, 1, 4⟩ 2 [7, 7, 7]
    (by decide) (by decide) (by decide) (by decide) (by decide)

/-- Counterexample to C7 as stated: a second successful `apply` of the same
already-applied action re-reads `previous_bytes` from the store instead of
keeping the bytes captured on the first apply.  After the first apply of
`Edit(1, [9])` on `[0, 1, 2, 3, 4]` the action holds `previous_data = [1]`;
applying that action again succeeds and leaves `previous_data = [9]` (the
byte the first apply wrote), not `[1]`. -/
theorem c7_previous_bytes_counterexample :
    EditAction.apply (EditAction.new 1 [9]) ⟨[0, 1, 2, 3, 4], 0⟩ =
      (⟨1, [1], [9]⟩, ⟨[0, 9, 2, 3, 4], 2⟩, none) ∧
    EditAction.apply ⟨1, [1], [9]⟩ ⟨[0, 9, 2, 3, 4], 2⟩ =
      (⟨1, [9], [9]⟩, ⟨[0, 9, 2, 3, 4], 2⟩, none) ∧
    ([9] : List Nat) ≠ [1] := by decide

/-- C7 as amended: `previous_bytes` starts empty and is (re)read from the
store on every successful apply — after any successful apply it holds
exactly the store bytes that were at `position`, sized to
`len(new_bytes)`. -/
theorem c7_previous_bytes_amended (p : Nat) (nd : List Nat)
    (a a2 : EditAction) (s s2 : Store)
    (h : EditAction.apply a s = (a2, s2, none)) :
    (EditAction.new p nd).previous_data = [] ∧
    a2.previous_data = (s.data.drop a.position).take a.new_data.length ∧
    a2.previous_data.length = a.new_data.length := by
  obtain ⟨h1, h2, h3, h4⟩ := EditAction.apply_ok h
  refine ⟨rfl, by rw [h3], ?_⟩
  rw [h3]
  simp only [List.length_take, List.length_drop]
  omega

/-- Witness for the amended C7 at the first apply of `Edit(1, [9])`. -/
theorem c7_previous_bytes_amended_witness :
    (EditAction.new 1 [9]).previous_data = [] ∧
    (⟨1, [1], [9]⟩ : EditAction).previous_data =
      (([0, 1, 2, 3, 4] : List Nat).drop 1).take 1 ∧
    (⟨1, [1], [9]⟩ : EditAction).previous_data.length = 1 :=
  c7_previous_bytes_amended 1 [9] (EditAction.new 1 [9]) ⟨1, [1], [9]⟩
    ⟨[0, 1, 2, 3, 4], 0⟩ ⟨[0, 9, 2, 3, 4], 2⟩ (by decide)

/-- C8: `apply_offset` returns the `Negative` error whenever the true
signed result would be below zero, and in particular rejects the
most-negative `i64` delta (`i64::MIN`, which has no positive magnitude
counterpart) for every position, rather than wrapping or panicking. -/
theorem c8_apply_offset_negative (position : Nat) (offset : Int)
    (hpos : position ≤ U64_MAX) (hlo : I64_MIN ≤ offset)
    (hhi : offset < 2 ^ 63) :
    ((position : Int) + offset < 0 →
      apply_offset position offset = Except.error OffsetError.Negative) ∧
    (offset = I64_MIN →
      apply_offset position offset = Except.error OffsetError.Negative) := by
  constructor
  · intro hneg
    have hoff : offset < 0 := by omega
    unfold apply_offset negative_i64_into_u64_offset
    rw [if_pos hoff]
    by_cases hmin : offset = I64_MIN
    · rw [if_pos hmin]
    · rw [if_neg hmin]
      dsimp only
      rw [if_neg (by omega : ¬ offset.natAbs ≤ position)]
  · intro hmin
    have hoff : offset < 0 := by
      rw [hmin]
      unfold I64_MIN
      omega
    unfold apply_offset negative_i64_into_u64_offset
    rw [if_pos hoff, if_pos hmin]

/-- Witness for C8 at position 5 with deltas −9 and `i64::MIN`. -/
theorem c8_apply_offset_negative_witness :
    apply_offset 5 (-9) = Except.error OffsetError.Negative ∧
    apply_offset 5 I64_MIN = Except.error OffsetError.Negative :=
  ⟨(c8_apply_offset_negative 5 (-9) (by decide) (by decide) (by decide)).1
      (by decide),
    (c8_apply_offset_negative 5 I64_MIN (by decide) (by decide) (by decide)).2
      rfl⟩

/-- C9 evaluation: `position_from_offset` computes `offset + range.start`
with a plain unchecked u64 addition; at `range.start = 1` and offset
`u64::MAX` the sum wraps around to 0 — silently below the range start,
with no error — instead of failing as the claim requires (in debug builds
the same addition panics). -/
theorem c9_position_from_offset_wraps :
    ConstrainedWrapper.position_from_offset ⟨⟨[], 0⟩, 1, 5⟩ U64_MAX = 0 ∧
    (0 : Nat) < (⟨⟨[], 0⟩, 1, 5⟩ : ConstrainedWrapper).rstart ∧
    U64_MAX + 1 ≠ 0 := by
  refine ⟨?_, by decide, by decide⟩
  unfold ConstrainedWrapper.position_from_offset U64_MAX
  decide

/-- C4 evaluation: on a view `[0, 5]` over an 11-byte store, `seek(End(3))`
does not clamp the target to the last valid position of the view: it
physically seeks the store to absolute position 8 — past `range.end = 5` —
and returns an InvalidInput error. -/
theorem c4_seek_end_no_clamp :
    ConstrainedWrapper.seek ⟨⟨[0, 1, 2, 3, 4, 5, 6, 7, 8, 9, 10], 0⟩, 0, 5⟩
        (SeekFrom.fromEnd 3) =
      (⟨⟨[0, 1, 2, 3, 4, 5, 6, 7, 8, 9, 10], 8⟩, 0, 5⟩,
        Except.error IoErrorKind.InvalidInput) ∧
    (5 : Nat) < 8 := by
  constructor
  · rfl
  · decide

/-- Counterexample to C6 as stated: a view whose range `[7, 10]` lies beyond
the end of a five-byte store, with the store position 7 inside the range
(exactly the state `ConstrainedWrapper::new(store, 7..10)` produces by
seeking the store to `range.start`).  There `read` does not transfer
`min(range.end − position, buffer length)` bytes or return a clean 0, and
`write` does not write the fitting buffer prefix: both fail with an
InvalidInput error (the internal `seek(Current(0))` clamps the position down
to the stream length 5, which `position_into_offset` then rejects as below
`range.start`). -/
theorem c6_read_write_counterexample :
    (7 : Nat) ≤ (7 : Nat) ∧ (7 : Nat) ≤ (10 : Nat) ∧
    ConstrainedWrapper.read ⟨⟨[0, 1, 2, 3, 4], 7⟩, 7, 10⟩ 2 =
      some (⟨⟨[0, 1, 2, 3, 4], 5⟩, 7, 10⟩,
        Except.error IoErrorKind.InvalidInput) ∧
    ConstrainedWrapper.write ⟨⟨[0, 1, 2, 3, 4], 7⟩, 7, 10⟩ [9, 9] =
      some (⟨⟨[0, 1, 2, 3, 4], 5⟩, 7, 10⟩,
        Except.error IoErrorKind.InvalidInput) := by
  refine ⟨by decide, by decide, ?_, ?_⟩
  · rfl
  · rfl
